import Mathlib

/-!
Verification of the core algorithms of `snodelist.c` (University of Delaware
IT-RCI `snodelist` tool): the run-length task-count decoder
(`task_count_init` / `task_count_next`), the line-format classifier and
renderer inside `print_machinefile`, and the machine-file generation loop.

The C code is shallowly embedded: C strings become `List Char`, with the
terminating NUL modelled by reading `'\x00'` past the end of the list
(`charAt`); pointers into the string become `Nat` offsets; the C `int`
return values become `Int`.  `strtol(p, &e, 10)` is modelled by `strtol`,
returning the parsed value and the number of characters consumed
(`0` when no conversion was performed, matching `e == p`).
-/

namespace Snodelist

/-- Read the character at byte offset `i` of a C string, NUL (`'\x00'`) past
the end, exactly as dereferencing a pointer into a NUL-terminated string. -/
def charAt (s : List Char) (i : Nat) : Char := s.getD i '\x00'

/-- C `isspace` in the default locale, as consulted by `strtol`. -/
def isSpaceC (c : Char) : Bool :=
  c = ' ' || c = '\t' || c = '\n' || c = '\x0b' || c = '\x0c' || c = '\r'

/-- Numeric value of a string of decimal digits (most significant first). -/
def digitsVal (ds : List Char) : Nat :=
  ds.foldl (fun a c => 10 * a + (c.toNat - 48)) 0

/-- `strtol(p, &end, 10)`: skip leading whitespace, then an optional single
sign, then decimal digits.  Returns `(value, consumed)` where `consumed` is
`end - p`; when no digits are found the result is `(0, 0)` because C leaves
`end == p` in that case. -/
def strtol (s : List Char) : Int × Nat :=
  let ws := (s.takeWhile isSpaceC).length
  match s.drop ws with
  | '-' :: r2 =>
    let ds := r2.takeWhile Char.isDigit
    if ds.length = 0 then (0, 0) else (-(digitsVal ds : Int), ws + 1 + ds.length)
  | '+' :: r2 =>
    let ds := r2.takeWhile Char.isDigit
    if ds.length = 0 then (0, 0) else ((digitsVal ds : Int), ws + 1 + ds.length)
  | r =>
    let ds := r.takeWhile Char.isDigit
    if ds.length = 0 then (0, 0) else ((digitsVal ds : Int), ws + ds.length)

/-- The decoder state `task_count_t` of `snodelist.c` (lines 135-140).
`cur_ptr` is kept as a byte offset into `task_count_str`.  The C field
`count` is an `int`, but it is non-negative in every reachable state (it is
initialised to `0`, only ever set to a parsed repeat count that was checked
`> 0`, and only decremented when non-zero), so it is modelled as `Nat`. -/
structure task_count_t where
  task_count_str : List Char
  cur_ptr : Nat
  value : Int
  count : Nat
deriving DecidableEq, Repr

/-- `task_count_init` (lines 142-151). -/
def task_count_init (s : List Char) : task_count_t :=
  { task_count_str := s, cur_ptr := 0, value := -1, count := 0 }

/-- Kinds of diagnostic emitted by `task_count_next`, one per distinct
`fprintf(stderr, ...)` format string in lines 179-206. -/
inductive tc_err where
  | invalidInteger
  | invalidRepeat
  | invalidRepeatSpec
  | unexpectedChar
deriving DecidableEq, Repr

/-- Observable outcome of one call to `task_count_next` (lines 153-215).
The C function returns an `int` and may print to `stderr`; the
correspondence is: `value v` = the function returns `v` with no
diagnostic; `exhausted` = the silent `return -1` at line 210;
`parse_error k off` = `return -1` after printing the diagnostic of kind
`k` carrying byte offset `off`.  `tc_ret` and `tc_diag` below recover the
raw observables. -/
inductive tc_outcome where
  | value : Int → tc_outcome
  | exhausted : tc_outcome
  | parse_error : tc_err → Nat → tc_outcome
deriving DecidableEq, Repr

/-- The `int` actually returned by the C function for a given outcome. -/
def tc_ret : tc_outcome → Int
  | .value v => v
  | .exhausted => -1
  | .parse_error _ _ => -1

/-- Whether a diagnostic is printed to `stderr` for a given outcome. -/
def tc_diag : tc_outcome → Bool
  | .parse_error _ _ => true
  | _ => false

/-- `task_count_next` (lines 153-215), returning the outcome and the
updated state.  Offsets in errors are exactly the pointer differences the
C code prints. -/
def task_count_next (tc : task_count_t) : tc_outcome × task_count_t :=
  if tc.count = 0 then
    if charAt tc.task_count_str tc.cur_ptr ≠ '\x00' then
      let p := strtol (tc.task_count_str.drop tc.cur_ptr)
      if 0 < p.2 then
        let tc1 : task_count_t := { tc with value := p.1 }
        let e1 := tc.cur_ptr + p.2
        if charAt tc.task_count_str e1 = '(' then
          if charAt tc.task_count_str (e1 + 1) = 'x' then
            let q := strtol (tc.task_count_str.drop (e1 + 2))
            if 0 < q.1 ∧ 0 < q.2 then
              let tc2 : task_count_t := { tc1 with count := q.1.toNat }
              let e2 := e1 + 2 + q.2
              if charAt tc.task_count_str e2 = ')' ∧
                  (charAt tc.task_count_str (e2 + 1) = ',' ∨
                   charAt tc.task_count_str (e2 + 1) = '\x00') then
                let e3 := if charAt tc.task_count_str (e2 + 1) ≠ '\x00'
                          then e2 + 2 else e2 + 1
                (tc_outcome.value tc2.value,
                  { tc2 with cur_ptr := e3, count := tc2.count - 1 })
              else
                (tc_outcome.parse_error .unexpectedChar e2, tc2)
            else
              (tc_outcome.parse_error .invalidRepeat (e1 + 2), tc1)
          else
            (tc_outcome.parse_error .invalidRepeatSpec (e1 + 1), tc1)
        else if charAt tc.task_count_str e1 = ',' then
          (tc_outcome.value tc1.value,
            { tc1 with cur_ptr := e1 + 1, count := 0 })
        else if charAt tc.task_count_str e1 = '\x00' then
          (tc_outcome.value tc1.value,
            { tc1 with cur_ptr := e1, count := 0 })
        else
          (tc_outcome.parse_error .unexpectedChar e1, tc1)
      else
        (tc_outcome.parse_error .invalidInteger tc.cur_ptr, tc)
    else
      (tc_outcome.exhausted, tc)
  else
    (tc_outcome.value tc.value, { tc with count := tc.count - 1 })

/-- Outcomes of `n` successive calls to `task_count_next`, threading the
mutated state. -/
def tcTake : Nat → task_count_t → List tc_outcome
  | 0, _ => []
  | n + 1, tc =>
    let r := task_count_next tc
    r.1 :: tcTake n r.2

end Snodelist

namespace Snodelist

/-- Length bound for `List.dropWhile`, used for termination of the
scanning loops below. -/
theorem dropWhile_len_le {α : Type} (p : α → Bool) (l : List α) :
    (l.dropWhile p).length ≤ l.length := by
  induction l with
  | nil => simp
  | cons a t ih =>
    rw [List.dropWhile_cons]
    split
    · exact Nat.le_succ_of_le ih
    · simp

/-- If `dropWhile` returns a cons, its tail is shorter than the input;
used for termination of the scanning loops below. -/
theorem dropWhile_cons_len {α : Type} (p : α → Bool) (l r : List α) (x : α)
    (h : l.dropWhile p = x :: r) : r.length < l.length := by
  have h1 := congrArg List.length h
  have h3 := dropWhile_len_le p l
  simp only [List.length_cons] at h1
  omega

/-- `startsWith hay pat`: `pat` occurs at the very beginning of `hay`. -/
def startsWith : List Char → List Char → Bool
  | _, [] => true
  | [], _ :: _ => false
  | a :: hs, b :: ps => a = b && startsWith hs ps

/-- `strstr(hay, pat) != NULL`: `pat` occurs as a substring of `hay`. -/
def containsSub : List Char → List Char → Bool
  | hay, pat =>
    startsWith hay pat ||
      match hay with
      | [] => false
      | _ :: t => containsSub t pat


/-- The body of the `while ((s = strstr(s, "%[")))` classification loop of
`print_machinefile` (lines 300-310), with `fuel` purely a structural
termination device (every recursive call strictly shortens the list, and
every caller passes `length + 1`, so the `fuel = 0` branch is unreachable;
`ds_go_fuel` below proves the result independent of any sufficient fuel).
Find an occurrence of `"%["`; skip up to the next `']'`; report a count
token when the character after that `']'` is `'c'` or `'C'`; otherwise
resume the `strstr` search from the character after the `']'`, or give up
when the skip ran into the end of the string. -/
def ds_go : Nat → List Char → Bool
  | 0, _ => false
  | fuel + 1, l =>
    match l with
    | [] => false
    | a :: t =>
      if startsWith (a :: t) ['%', '['] then
        if ((t.drop 1).dropWhile (· ≠ ']')).getD 0 '\x00' = ']' then
          if ((t.drop 1).dropWhile (· ≠ ']')).getD 1 '\x00' = 'c' ∨
              ((t.drop 1).dropWhile (· ≠ ']')).getD 1 '\x00' = 'C' then true
          else ds_go fuel (((t.drop 1).dropWhile (· ≠ ']')).drop 1)
        else false
      else ds_go fuel t

/-- The delimited-count-token scan over a whole template. -/
def delimScan (l : List Char) : Bool := ds_go (l.length + 1) l

/-- The one-time `has_count` classification at the top of
`print_machinefile` (lines 293-311): a plain `strstr` substring search for
`"%c"` or `"%C"`, else the delimited-token scan. -/
def has_count_classify (format : List Char) : Bool :=
  if containsSub format ['%', 'c'] || containsSub format ['%', 'C'] then true
  else delimScan format

/-- One rendition of the template in repeat mode (the inner loop at lines
402-437): only `%%` and `%h` are substituted; any other `%`-prefixed
character (and a trailing lone `%`) is consumed silently; everything else
is copied verbatim.  The trailing newline of line 438 is appended by the
caller. -/
def render_repeat : List Char → List Char → List Char
  | [], _ => []
  | '%' :: '%' :: r, host => '%' :: render_repeat r host
  | '%' :: 'h' :: r, host => host ++ render_repeat r host
  | ['%'], _ => []
  | '%' :: _ :: r, host => render_repeat r host
  | c :: r, host => c :: render_repeat r host

/-- Prepend already-written characters to a renderer result. -/
def pushOut (pre : List Char) (p : List Char × Bool) : List Char × Bool :=
  (pre ++ p.1, p.2)

/-- Single-pass rendering of the template (lines 324-399) for one host and
one task count, following the `switch` on the character after `'%'`:
`%%`, `%h`, `%C` (falling through to `%c` when `taskCount > 1`), `%c`,
`%[`, a trailing `'%'`, and the silent default.  In the `%[` case the
delimiter is the run of characters before the next `']'`; if no `']'`
exists the process exits via `exit(EINVAL)` (line 378), reported here as a
`false` flag together with the partial output written before the exit.
`fuel` is purely a structural termination device (every recursive call
strictly shortens the template, every caller passes `length + 1`, and
`rs_go_fuel` below proves the result independent of any sufficient fuel).
The trailing newline of line 400 is appended by `render_line`. -/
def rs_go : Nat → List Char → List Char → Int → List Char × Bool
  | 0, _, _, _ => ([], true)
  | fuel + 1, fmt, host, n =>
    match fmt with
    | [] => ([], true)
    | c :: r =>
      if c = '%' then
        match r with
        | [] => ([], true)
        | c2 :: r2 =>
          if c2 = '%' then pushOut ['%'] (rs_go fuel r2 host n)
          else if c2 = 'h' then pushOut host (rs_go fuel r2 host n)
          else if c2 = 'C' ∧ n ≤ 1 then rs_go fuel r2 host n
          else if c2 = 'C' ∨ c2 = 'c' then
            pushOut (Int.repr n).toList (rs_go fuel r2 host n)
          else if c2 = '[' then
            if (r2.dropWhile (· ≠ ']')).getD 0 '\x00' = ']' then
              if (r2.dropWhile (· ≠ ']')).getD 1 '\x00' = 'C' ∧ n ≤ 1 then
                rs_go fuel ((r2.dropWhile (· ≠ ']')).drop 2) host n
              else if (r2.dropWhile (· ≠ ']')).getD 1 '\x00' = 'C' ∨
                  (r2.dropWhile (· ≠ ']')).getD 1 '\x00' = 'c' then
                pushOut (r2.takeWhile (· ≠ ']') ++ (Int.repr n).toList)
                  (rs_go fuel ((r2.dropWhile (· ≠ ']')).drop 2) host n)
              else if (r2.dropWhile (· ≠ ']')).getD 1 '\x00' = '\x00' then ([], true)
              else rs_go fuel ((r2.dropWhile (· ≠ ']')).drop 2) host n
            else ([], false)
          else rs_go fuel r2 host n
      else pushOut [c] (rs_go fuel r host n)

/-- Single-pass rendering of a whole template. -/
def render_single (format host : List Char) (n : Int) : List Char × Bool :=
  rs_go (format.length + 1) format host n

/-- One full line in single-pass mode: the rendition plus the trailing
newline of line 400 when the loop completed, the bare partial output when
the process exited with `EINVAL`. -/
def render_line (format host : List Char) (n : Int) : List Char × Bool :=
  let p := render_single format host n
  if p.2 then (p.1 ++ ['\n'], true) else (p.1, false)

/-- `n` repetitions of a repeat-mode rendition, each newline-terminated
(the `while (task_count--)` loop at lines 402-439). -/
def rep_lines : Nat → List Char → List Char
  | 0, _ => []
  | n + 1, l => l ++ '\n' :: rep_lines n l

/-- Aggregate observable behaviour of `print_machinefile`: the characters
written to `stdout`, the decoder diagnostic printed to `stderr` (if any;
the loop stops right after the first one, so at most one is possible), and
whether the process exited via `exit(EINVAL)` because of an unterminated
`%[` during rendering. -/
structure mf_result where
  out : List Char
  diag : Option (tc_err × Nat)
  fatal : Bool
deriving DecidableEq, Repr

/-- Diagnostic emitted on `stderr` by an outcome of `task_count_next`. -/
def tc_diag_of : tc_outcome → Option (tc_err × Nat)
  | .parse_error k off => some (k, off)
  | _ => none

/-- The host loop of `print_machinefile` (lines 313-441): shift the next
host (an exhausted host list stops the loop), pull the next task count (a
return value `<= 0` — exhaustion, parse error, or a non-positive decoded
value — stops the loop), then render either one single-pass line (when
`has_count || no_repeats`) or `task_count` repeat-mode lines. -/
def mf_loop (has_count no_repeats : Bool) (format : List Char) :
    List (List Char) → task_count_t → mf_result
  | [], _ => { out := [], diag := none, fatal := false }
  | host :: rest, tc =>
    if tc_ret (task_count_next tc).1 ≤ 0 then
      { out := [], diag := tc_diag_of (task_count_next tc).1, fatal := false }
    else if has_count || no_repeats then
      if (render_line format host (tc_ret (task_count_next tc).1)).2 then
        { out := (render_line format host (tc_ret (task_count_next tc).1)).1 ++
            (mf_loop has_count no_repeats format rest (task_count_next tc).2).out,
          diag := (mf_loop has_count no_repeats format rest (task_count_next tc).2).diag,
          fatal := (mf_loop has_count no_repeats format rest (task_count_next tc).2).fatal }
      else
        { out := (render_line format host (tc_ret (task_count_next tc).1)).1,
          diag := none, fatal := true }
    else
      { out := rep_lines (tc_ret (task_count_next tc).1).toNat (render_repeat format host) ++
          (mf_loop has_count no_repeats format rest (task_count_next tc).2).out,
        diag := (mf_loop has_count no_repeats format rest (task_count_next tc).2).diag,
        fatal := (mf_loop has_count no_repeats format rest (task_count_next tc).2).fatal }

/-- `print_machinefile` (lines 285-442): classify the template once, then
run the host loop. -/
def print_machinefile (hosts : List (List Char)) (tc : task_count_t)
    (format : List Char) (no_repeats : Bool) : mf_result :=
  mf_loop (has_count_classify format) no_repeats format hosts tc

end Snodelist

namespace Snodelist

example :
    tcTake 7 (task_count_init "4(x2),2,1(x3)".toList) =
      [.value 4, .value 4, .value 2, .value 1, .value 1, .value 1, .exhausted] := by
  decide

example : (task_count_next (task_count_init "-3".toList)).1 = .value (-3) := by decide

example : (task_count_next (task_count_init "abc".toList)).1 =
    .parse_error .invalidInteger 0 := by decide

example : (task_count_next (task_count_init "".toList)).1 = .exhausted := by decide

example : tcTake 3 (task_count_init "4,".toList) =
    [.value 4, .exhausted, .exhausted] := by decide

example : delimScan "%[:]C".toList = true := by decide
example : delimScan "%[x".toList = false := by decide
example : delimScan "%[a]x%[b]c".toList = true := by decide
example : has_count_classify "%%c".toList = true := by decide
example : has_count_classify "%h".toList = false := by decide
example : has_count_classify "%h%[:]C".toList = true := by decide
example : render_single "%h%[:]C".toList "n001".toList 3 = ("n001:3".toList, true) := by
  decide
example : render_single "%h%[:]C".toList "n001".toList 1 = ("n001".toList, true) := by
  decide
example : render_single "%h%[x".toList "n001".toList 3 = ("n001".toList, false) := by
  decide
example :
    print_machinefile ["n000".toList, "n001".toList, "n002".toList]
      (task_count_init "2,1".toList) "%h%[:]C".toList false =
    { out := "n000:2\nn001\n".toList, diag := none, fatal := false } := by
  decide
example :
    print_machinefile ["n001".toList] (task_count_init "1".toList)
      "%[x".toList false =
    { out := "x\n".toList, diag := none, fatal := false } := by
  decide
example :
    print_machinefile ["n001".toList] (task_count_init "3".toList)
      "%h".toList false =
    { out := "n001\nn001\nn001\n".toList, diag := none, fatal := false } := by
  decide
example :
    print_machinefile ["n001".toList] (task_count_init "3".toList)
      "%h".toList true =
    { out := "n001\n".toList, diag := none, fatal := false } := by
  decide

end Snodelist

namespace Snodelist

theorem ds_go_fuel : ∀ (f1 f2 : Nat) (l : List Char), l.length < f1 → l.length < f2 →
    ds_go f1 l = ds_go f2 l := by
  intro f1
  induction f1 with
  | zero => intro f2 l h1 h2; omega
  | succ m ih =>
    intro f2 l h1 h2
    cases f2 with
    | zero => omega
    | succ k =>
      cases l with
      | nil => rfl
      | cons a t =>
        simp only [ds_go.eq_3]
        have hsk := dropWhile_len_le (fun x => decide (x ≠ ']')) (t.drop 1)
        simp only [List.length_drop] at hsk
        simp only [List.length_cons] at h1 h2
        split
        · split
          · split
            · rfl
            · exact ih k _ (by simp only [List.length_drop]; omega)
                (by simp only [List.length_drop]; omega)
          · rfl
        · exact ih k t (by omega) (by omega)

theorem rs_go_fuel : ∀ (f1 f2 : Nat) (l host : List Char) (n : Int),
    l.length < f1 → l.length < f2 → rs_go f1 l host n = rs_go f2 l host n := by
  intro f1
  induction f1 with
  | zero => intro f2 l host n h1 h2; omega
  | succ m ih =>
    intro f2 l host n h1 h2
    cases f2 with
    | zero => omega
    | succ k =>
      cases l with
      | nil => rfl
      | cons c r =>
        cases r with
        | nil =>
          simp only [List.length_cons, List.length_nil] at h1 h2
          simp only [rs_go.eq_3]
          split
          · rfl
          · exact congrArg _ (ih k [] host n (by simp only [List.length_nil]; omega)
              (by simp only [List.length_nil]; omega))
        | cons c2 r2 =>
          have hsk := dropWhile_len_le (fun x => decide (x ≠ ']')) r2
          have hih : rs_go m r2 host n = rs_go k r2 host n := by
            apply ih <;> simp only [List.length_cons] at h1 h2 <;> omega
          have hihd : rs_go m ((r2.dropWhile (· ≠ ']')).drop 2) host n =
              rs_go k ((r2.dropWhile (· ≠ ']')).drop 2) host n := by
            apply ih <;> simp only [List.length_cons] at h1 h2 <;>
              simp only [List.length_drop] <;> omega
          have hihr : rs_go m (c2 :: r2) host n = rs_go k (c2 :: r2) host n := by
            apply ih <;> simp only [List.length_cons] at h1 h2 ⊢ <;> omega
          rw [rs_go.eq_4, rs_go.eq_4]
          by_cases hA : c = '%'
          · rw [if_pos hA, if_pos hA]
            by_cases hB : c2 = '%'
            · rw [if_pos hB, if_pos hB, hih]
            · rw [if_neg hB, if_neg hB]
              by_cases hC : c2 = 'h'
              · rw [if_pos hC, if_pos hC, hih]
              · rw [if_neg hC, if_neg hC]
                by_cases hD : c2 = 'C' ∧ n ≤ 1
                · rw [if_pos hD, if_pos hD, hih]
                · rw [if_neg hD, if_neg hD]
                  by_cases hE : c2 = 'C' ∨ c2 = 'c'
                  · rw [if_pos hE, if_pos hE, hih]
                  · rw [if_neg hE, if_neg hE]
                    by_cases hF : c2 = '['
                    · rw [if_pos hF, if_pos hF]
                      by_cases hG : (r2.dropWhile (· ≠ ']')).getD 0 '\x00' = ']'
                      · rw [if_pos hG, if_pos hG]
                        by_cases hH : (r2.dropWhile (· ≠ ']')).getD 1 '\x00' = 'C' ∧ n ≤ 1
                        · rw [if_pos hH, if_pos hH, hihd]
                        · rw [if_neg hH, if_neg hH]
                          by_cases hI : (r2.dropWhile (· ≠ ']')).getD 1 '\x00' = 'C' ∨
                              (r2.dropWhile (· ≠ ']')).getD 1 '\x00' = 'c'
                          · rw [if_pos hI, if_pos hI, hihd]
                          · rw [if_neg hI, if_neg hI]
                            by_cases hJ : (r2.dropWhile (· ≠ ']')).getD 1 '\x00' = '\x00'
                            · rw [if_pos hJ, if_pos hJ]
                            · rw [if_neg hJ, if_neg hJ, hihd]
                      · rw [if_neg hG, if_neg hG]
                    · rw [if_neg hF, if_neg hF, hih]
          · rw [if_neg hA, if_neg hA, hihr]

end Snodelist

namespace Snodelist

/-- Any sufficient fuel computes `render_single`. -/
theorem rs_go_eq_render_single (f : Nat) (fmt host : List Char) (n : Int)
    (h : fmt.length < f) : rs_go f fmt host n = render_single fmt host n :=
  rs_go_fuel f (fmt.length + 1) fmt host n h (Nat.lt_succ_self _)

/-- Any sufficient fuel computes `delimScan`. -/
theorem ds_go_eq_delimScan (f : Nat) (l : List Char) (h : l.length < f) :
    ds_go f l = delimScan l :=
  ds_go_fuel f (l.length + 1) l h (Nat.lt_succ_self _)

/-- `takeWhile (· ≠ ']')` keeps a `]`-free list intact. -/
theorem takeWhile_no_rb (d : List Char) (hd : ']' ∉ d) :
    d.takeWhile (· ≠ ']') = d := by
  induction d with
  | nil => rfl
  | cons a t ih =>
    simp only [List.mem_cons, not_or] at hd
    have ha : a ≠ ']' := fun h => hd.1 h.symm
    rw [List.takeWhile_cons, if_pos (by simpa using ha), ih hd.2]

/-- `dropWhile (· ≠ ']')` erases a `]`-free list. -/
theorem dropWhile_no_rb (d : List Char) (hd : ']' ∉ d) :
    d.dropWhile (· ≠ ']') = [] := by
  induction d with
  | nil => rfl
  | cons a t ih =>
    simp only [List.mem_cons, not_or] at hd
    have ha : a ≠ ']' := fun h => hd.1 h.symm
    rw [List.dropWhile_cons, if_pos (by simpa using ha), ih hd.2]

/-- `takeWhile (· ≠ ']')` across an append stops at the first `']'`. -/
theorem takeWhile_append_rb (d r : List Char) (hd : ']' ∉ d) :
    (d ++ ']' :: r).takeWhile (· ≠ ']') = d := by
  induction d with
  | nil =>
    rw [List.nil_append, List.takeWhile_cons, if_neg (by simp)]
  | cons a t ih =>
    simp only [List.mem_cons, not_or] at hd
    have ha : a ≠ ']' := fun h => hd.1 h.symm
    rw [List.cons_append, List.takeWhile_cons, if_pos (by simpa using ha), ih hd.2]

/-- `dropWhile (· ≠ ']')` across an append stops at the first `']'`. -/
theorem dropWhile_append_rb (d r : List Char) (hd : ']' ∉ d) :
    (d ++ ']' :: r).dropWhile (· ≠ ']') = ']' :: r := by
  induction d with
  | nil =>
    rw [List.nil_append, List.dropWhile_cons, if_neg (by simp)]
  | cons a t ih =>
    simp only [List.mem_cons, not_or] at hd
    have ha : a ≠ ']' := fun h => hd.1 h.symm
    rw [List.cons_append, List.dropWhile_cons, if_pos (by simpa using ha), ih hd.2]

/-- Token step: `%%` writes a literal percent sign. -/
theorem render_single_pct (r host : List Char) (n : Int) :
    render_single ('%' :: '%' :: r) host n = pushOut ['%'] (render_single r host n) := by
  show rs_go (r.length + 3) ('%' :: '%' :: r) host n = _
  rw [rs_go.eq_4, if_pos rfl, if_pos rfl,
    rs_go_eq_render_single (r.length + 2) r host n (by omega)]

/-- Token step: `%h` writes the host name. -/
theorem render_single_h (r host : List Char) (n : Int) :
    render_single ('%' :: 'h' :: r) host n = pushOut host (render_single r host n) := by
  show rs_go (r.length + 3) ('%' :: 'h' :: r) host n = _
  rw [rs_go.eq_4, if_pos rfl, if_neg (by decide), if_pos rfl,
    rs_go_eq_render_single (r.length + 2) r host n (by omega)]

/-- Token step: `%C` is consumed without output when the count is `<= 1`. -/
theorem render_single_C_le (r host : List Char) (n : Int) (hn : n ≤ 1) :
    render_single ('%' :: 'C' :: r) host n = render_single r host n := by
  show rs_go (r.length + 3) ('%' :: 'C' :: r) host n = _
  rw [rs_go.eq_4, if_pos rfl, if_neg (by decide), if_neg (by decide),
    if_pos ⟨rfl, hn⟩,
    rs_go_eq_render_single (r.length + 2) r host n (by omega)]

/-- Token step: `%C` writes the decimal count when it is `> 1`. -/
theorem render_single_C_gt (r host : List Char) (n : Int) (hn : 1 < n) :
    render_single ('%' :: 'C' :: r) host n =
      pushOut (Int.repr n).toList (render_single r host n) := by
  show rs_go (r.length + 3) ('%' :: 'C' :: r) host n = _
  rw [rs_go.eq_4, if_pos rfl, if_neg (by decide), if_neg (by decide),
    if_neg (fun h => by omega), if_pos (Or.inl rfl),
    rs_go_eq_render_single (r.length + 2) r host n (by omega)]

/-- Token step: `%c` always writes the decimal count. -/
theorem render_single_c (r host : List Char) (n : Int) :
    render_single ('%' :: 'c' :: r) host n =
      pushOut (Int.repr n).toList (render_single r host n) := by
  show rs_go (r.length + 3) ('%' :: 'c' :: r) host n = _
  rw [rs_go.eq_4, if_pos rfl, if_neg (by decide), if_neg (by decide),
    if_neg (fun h => by exact absurd h.1 (by decide)), if_pos (Or.inr rfl),
    rs_go_eq_render_single (r.length + 2) r host n (by omega)]

end Snodelist

namespace Snodelist

/-- Token step: `%[<delim>]C` is consumed without any output (delimiter
included) when the count is `<= 1`. -/
theorem render_single_delim_C_le (d r host : List Char) (n : Int)
    (hd : ']' ∉ d) (hn : n ≤ 1) :
    render_single ('%' :: '[' :: (d ++ ']' :: 'C' :: r)) host n =
      render_single r host n := by
  show rs_go (('%' :: '[' :: (d ++ ']' :: 'C' :: r)).length + 1) _ host n = _
  rw [rs_go.eq_4, if_pos rfl, if_neg (by decide), if_neg (by decide),
    if_neg (fun h => absurd h.1 (by decide)), if_neg (by decide), if_pos rfl,
    dropWhile_append_rb d ('C' :: r) hd]
  simp only [List.getD_cons_zero, List.getD_cons_succ, if_true, true_and, true_or]
  rw [if_pos hn]
  simp only [List.drop_succ_cons, List.drop_zero]
  exact rs_go_eq_render_single _ r host n (by simp [List.length_append]; omega)

/-- Token step: `%[<delim>]C` writes the delimiter then the decimal count
when the count is `> 1`. -/
theorem render_single_delim_C_gt (d r host : List Char) (n : Int)
    (hd : ']' ∉ d) (hn : 1 < n) :
    render_single ('%' :: '[' :: (d ++ ']' :: 'C' :: r)) host n =
      pushOut (d ++ (Int.repr n).toList) (render_single r host n) := by
  show rs_go (('%' :: '[' :: (d ++ ']' :: 'C' :: r)).length + 1) _ host n = _
  rw [rs_go.eq_4, if_pos rfl, if_neg (by decide), if_neg (by decide),
    if_neg (fun h => absurd h.1 (by decide)), if_neg (by decide), if_pos rfl,
    dropWhile_append_rb d ('C' :: r) hd, takeWhile_append_rb d ('C' :: r) hd]
  simp only [List.getD_cons_zero, List.getD_cons_succ, if_true, true_and, true_or]
  rw [if_neg (by omega)]
  simp only [List.drop_succ_cons, List.drop_zero]
  rw [rs_go_eq_render_single _ r host n (by simp [List.length_append]; omega)]

/-- Token step: `%[<delim>]c` always writes the delimiter then the decimal
count. -/
theorem render_single_delim_c (d r host : List Char) (n : Int) (hd : ']' ∉ d) :
    render_single ('%' :: '[' :: (d ++ ']' :: 'c' :: r)) host n =
      pushOut (d ++ (Int.repr n).toList) (render_single r host n) := by
  show rs_go (('%' :: '[' :: (d ++ ']' :: 'c' :: r)).length + 1) _ host n = _
  rw [rs_go.eq_4, if_pos rfl, if_neg (by decide), if_neg (by decide),
    if_neg (fun h => absurd h.1 (by decide)), if_neg (by decide), if_pos rfl,
    dropWhile_append_rb d ('c' :: r) hd, takeWhile_append_rb d ('c' :: r) hd]
  simp only [List.getD_cons_zero, List.getD_cons_succ, if_true]
  rw [if_neg (fun h => absurd h.1 (by decide)), if_pos (Or.inr trivial)]
  simp only [List.drop_succ_cons, List.drop_zero]
  rw [rs_go_eq_render_single _ r host n (by simp [List.length_append]; omega)]

/-- Token step: an unterminated `%[` (no `']'` anywhere after it) makes
single-pass rendering exit with `EINVAL`, producing no further output. -/
theorem render_single_unterminated (d host : List Char) (n : Int) (hd : ']' ∉ d) :
    render_single ('%' :: '[' :: d) host n = ([], false) := by
  show rs_go (('%' :: '[' :: d).length + 1) _ host n = _
  rw [rs_go.eq_4, if_pos rfl, if_neg (by decide), if_neg (by decide),
    if_neg (fun h => absurd h.1 (by decide)), if_neg (by decide), if_pos rfl,
    dropWhile_no_rb d hd]
  rw [if_neg (by decide)]

end Snodelist

namespace Snodelist

/-- `startsWith` agrees with an explicit decomposition. -/
theorem startsWith_iff : ∀ (pat hay : List Char),
    startsWith hay pat = true ↔ ∃ b, hay = pat ++ b := by
  intro pat
  induction pat with
  | nil =>
    intro hay
    constructor
    · intro _; exact ⟨hay, rfl⟩
    · intro _; cases hay <;> rfl
  | cons p ps ih =>
    intro hay
    cases hay with
    | nil =>
      constructor
      · intro h; exact absurd h (by rw [startsWith]; simp)
      · rintro ⟨b, hb⟩; exact absurd hb (by simp)
    | cons a hs =>
      have hD : startsWith (a :: hs) (p :: ps) = (a = p && startsWith hs ps) := rfl
      rw [hD, Bool.and_eq_true, decide_eq_true_eq, ih hs]
      constructor
      · rintro ⟨hap, b, hb⟩
        exact ⟨b, by rw [hap, hb]; rfl⟩
      · rintro ⟨b, hb⟩
        injection hb with h1 h2
        exact ⟨h1, b, h2⟩

/-- `containsSub` (the model of `strstr`) agrees with an explicit substring
decomposition. -/
theorem containsSub_iff : ∀ (hay pat : List Char),
    containsSub hay pat = true ↔ ∃ a b, hay = a ++ pat ++ b := by
  intro hay
  induction hay with
  | nil =>
    intro pat
    have hD : containsSub [] pat = (startsWith [] pat || false) := rfl
    rw [hD, Bool.or_false, startsWith_iff]
    constructor
    · rintro ⟨b, hb⟩
      exact ⟨[], b, by simpa using hb⟩
    · rintro ⟨a, b, hb⟩
      rcases a with _ | ⟨x, a'⟩
      · exact ⟨b, by simpa using hb⟩
      · exact absurd hb (by simp)
  | cons c t ih =>
    intro pat
    have hD : containsSub (c :: t) pat = (startsWith (c :: t) pat || containsSub t pat) := rfl
    rw [hD, Bool.or_eq_true, startsWith_iff, ih pat]
    constructor
    · rintro (⟨b, hb⟩ | ⟨a, b, hb⟩)
      · exact ⟨[], b, by simpa using hb⟩
      · exact ⟨c :: a, b, by simp [hb]⟩
    · rintro ⟨a, b, hb⟩
      rcases a with _ | ⟨x, a'⟩
      · exact Or.inl ⟨b, by simpa using hb⟩
      · simp only [List.cons_append] at hb
        injection hb with h1 h2
        exact Or.inr ⟨a', b, h2⟩

end Snodelist

namespace Snodelist

/-- A template contains a delimited count token: somewhere it has `"%["`,
then delimiter characters none of which is `']'`, then `"]c"` or `"]C"`. -/
def delim_token_split (t : List Char) : Prop :=
  ∃ a d b, ']' ∉ d ∧
    (t = a ++ '%' :: '[' :: (d ++ ']' :: 'c' :: b) ∨
     t = a ++ '%' :: '[' :: (d ++ ']' :: 'C' :: b))

/-- Split a list at the first occurrence of `']'`. -/
theorem mem_split_first (d : List Char) (h : ']' ∈ d) :
    ∃ p q, d = p ++ ']' :: q ∧ ']' ∉ p := by
  induction d with
  | nil => simp at h
  | cons a t ih =>
    by_cases ha : a = ']'
    · exact ⟨[], t, by rw [ha]; rfl, by simp⟩
    · have ht : ']' ∈ t := by
        rcases List.mem_cons.mp h with h1 | h1
        · exact absurd h1.symm ha
        · exact h1
      obtain ⟨p, q, hpq, hp⟩ := ih ht
      refine ⟨a :: p, q, by rw [hpq]; rfl, ?_⟩
      intro hm
      rcases List.mem_cons.mp hm with h1 | h1
      · exact ha h1.symm
      · exact hp h1

/-- Soundness of the classification loop: if the scan reports a delimited
count token, the template really decomposes as one. -/
theorem ds_go_split : ∀ (f : Nat) (l : List Char),
    ds_go f l = true → delim_token_split l := by
  intro f
  induction f with
  | zero => intro l h; exact absurd h (by rw [ds_go.eq_1]; simp)
  | succ m ih =>
    intro l h
    cases l with
    | nil => exact absurd h (by rw [ds_go.eq_2]; simp)
    | cons a t =>
      rw [ds_go.eq_3] at h
      by_cases hsw : startsWith (a :: t) ['%', '['] = true
      · rw [if_pos hsw] at h
        obtain ⟨u0, hu⟩ := (startsWith_iff _ _).mp hsw
        simp only [List.cons_append, List.nil_append] at hu
        injection hu with ha ht
        subst ha
        subst ht
        simp only [List.drop_succ_cons, List.drop_zero] at h
        by_cases hg0 : (u0.dropWhile (· ≠ ']')).getD 0 '\x00' = ']'
        · rw [if_pos hg0] at h
          rcases hsk : u0.dropWhile (· ≠ ']') with _ | ⟨s0, sk1⟩
          · rw [hsk] at hg0; exact absurd hg0 (by decide)
          · rw [hsk] at hg0 h
            simp only [List.getD_cons_zero, List.getD_cons_succ] at hg0 h
            subst hg0
            have hu0 : u0 = u0.takeWhile (· ≠ ']') ++ ']' :: sk1 := by
              conv_lhs => rw [← List.takeWhile_append_dropWhile (fun x => decide (x ≠ ']')) u0]
              rw [hsk]
            have hdnotin : ']' ∉ u0.takeWhile (· ≠ ']') := by
              intro hm
              have := List.mem_takeWhile_imp hm
              simp at this
            by_cases hg1 : sk1.getD 0 '\x00' = 'c' ∨ sk1.getD 0 '\x00' = 'C'
            · rcases sk1 with _ | ⟨ch, b⟩
              · rcases hg1 with h1 | h1 <;> exact absurd h1 (by decide)
              · simp only [List.getD_cons_zero] at hg1
                refine ⟨[], u0.takeWhile (· ≠ ']'), b, hdnotin, ?_⟩
                rcases hg1 with h1 | h1
                · left
                  subst h1
                  conv_lhs => rw [hu0]
                  rw [List.nil_append]
                · right
                  subst h1
                  conv_lhs => rw [hu0]
                  rw [List.nil_append]
            · rw [if_neg hg1] at h
              simp only [List.drop_succ_cons, List.drop_zero] at h
              obtain ⟨a1, d, b, hd, hor⟩ := ih sk1 h
              refine ⟨'%' :: '[' :: (u0.takeWhile (· ≠ ']') ++ ']' :: a1), d, b, hd, ?_⟩
              rcases hor with h1 | h1
              · left
                conv_lhs => rw [hu0, h1]
                simp
              · right
                conv_lhs => rw [hu0, h1]
                simp
        · rw [if_neg hg0] at h
          exact absurd h (by simp)
      · rw [if_neg hsw] at h
        obtain ⟨a0, d, b, hd, hor⟩ := ih t h
        refine ⟨a :: a0, d, b, hd, ?_⟩
        rcases hor with h1 | h1
        · left; rw [h1]; rfl
        · right; rw [h1]; rfl

end Snodelist

namespace Snodelist

/-- Completeness of the classification loop: whenever the template
decomposes as a delimited count token, the scan finds one (maybe a
different, earlier one). -/
theorem split_ds_go : ∀ (f : Nat) (l : List Char), l.length < f →
    delim_token_split l → ds_go f l = true := by
  intro f
  induction f with
  | zero => intro l h; omega
  | succ m ih =>
    intro l hlen hsp
    obtain ⟨a0, d, b, hd, hor⟩ := hsp
    have hor' : ∃ ch, (ch = 'c' ∨ ch = 'C') ∧
        l = a0 ++ '%' :: '[' :: (d ++ ']' :: ch :: b) := by
      rcases hor with h1 | h1
      · exact ⟨'c', Or.inl rfl, h1⟩
      · exact ⟨'C', Or.inr rfl, h1⟩
    obtain ⟨ch, hch, hl⟩ := hor'
    subst hl
    cases a0 with
    | nil =>
      rw [List.nil_append, ds_go.eq_3]
      rw [if_pos ((startsWith_iff ['%', '['] ('%' :: '[' :: (d ++ ']' :: ch :: b))).mpr
        ⟨d ++ ']' :: ch :: b, rfl⟩)]
      simp only [List.drop_succ_cons, List.drop_zero]
      rw [dropWhile_append_rb d (ch :: b) hd]
      simp only [List.getD_cons_zero, List.getD_cons_succ, if_true]
      rw [if_pos hch]
    | cons x a1 =>
      rw [List.cons_append, ds_go.eq_3]
      by_cases hsw : startsWith (x :: (a1 ++ '%' :: '[' :: (d ++ ']' :: ch :: b))) ['%', '['] = true
      · obtain ⟨u0, hu⟩ := (startsWith_iff _ _).mp hsw
        simp only [List.cons_append, List.nil_append] at hu
        injection hu with hx hu1
        subst hx
        cases a1 with
        | nil =>
          exact absurd hu1 (by simp)
        | cons y a2 =>
          simp only [List.cons_append] at hu1
          injection hu1 with hy hu2
          subst hy
          rw [if_pos hsw]
          simp only [List.cons_append, List.drop_succ_cons, List.drop_zero]
          by_cases hin : ']' ∈ a2
          · obtain ⟨p, q, hpq, hp⟩ := mem_split_first a2 hin
            subst hpq
            have hre : (p ++ ']' :: q) ++ '%' :: '[' :: (d ++ ']' :: ch :: b) =
                p ++ ']' :: (q ++ '%' :: '[' :: (d ++ ']' :: ch :: b)) := by
              simp [List.append_assoc]
            rw [hre, dropWhile_append_rb p _ hp]
            simp only [List.getD_cons_zero, List.getD_cons_succ, if_true]
            by_cases hg1 : (q ++ '%' :: '[' :: (d ++ ']' :: ch :: b)).getD 0 '\x00' = 'c' ∨
                (q ++ '%' :: '[' :: (d ++ ']' :: ch :: b)).getD 0 '\x00' = 'C'
            · rw [if_pos hg1]
            · rw [if_neg hg1]
              simp only [List.drop_succ_cons, List.drop_zero]
              apply ih
              · simp only [List.length_cons, List.length_append] at hlen ⊢
                omega
              · refine ⟨q, d, b, hd, ?_⟩
                rcases hch with h1 | h1
                · left; rw [h1]
                · right; rw [h1]
          · have hre : a2 ++ '%' :: '[' :: (d ++ ']' :: ch :: b) =
                (a2 ++ '%' :: '[' :: d) ++ ']' :: (ch :: b) := by
              simp [List.append_assoc]
            have hnotin : ']' ∉ a2 ++ '%' :: '[' :: d := by
              intro hm
              rcases List.mem_append.mp hm with h1 | h1
              · exact hin h1
              · rcases List.mem_cons.mp h1 with h2 | h2
                · exact absurd h2 (by decide)
                · rcases List.mem_cons.mp h2 with h3 | h3
                  · exact absurd h3 (by decide)
                  · exact hd h3
            rw [hre, dropWhile_append_rb _ _ hnotin]
            simp only [List.getD_cons_zero, List.getD_cons_succ, if_true]
            rw [if_pos hch]
      · rw [if_neg hsw]
        apply ih
        · simp only [List.length_cons, List.length_append] at hlen ⊢
          omega
        · refine ⟨a1, d, b, hd, ?_⟩
          rcases hch with h1 | h1
          · left; rw [h1]
          · right; rw [h1]

end Snodelist

namespace Snodelist

/-- The delimited-token scan succeeds exactly on templates containing a
delimited count token. -/
theorem delimScan_iff (l : List Char) :
    delimScan l = true ↔ delim_token_split l :=
  ⟨fun h => ds_go_split _ _ h, fun h => split_ds_go (l.length + 1) l (Nat.lt_succ_self _) h⟩

/-- Exact characterisation of the one-time classification: `has_count` is
set iff the template contains `"%c"` or `"%C"` as a plain substring
(escaping not considered), or a delimited count token
`%[<delim>]c` / `%[<delim>]C` whose delimiter contains no `']'`. -/
theorem has_count_classify_iff (t : List Char) :
    has_count_classify t = true ↔
      (∃ a b, t = a ++ '%' :: 'c' :: b) ∨ (∃ a b, t = a ++ '%' :: 'C' :: b) ∨
        delim_token_split t := by
  unfold has_count_classify
  by_cases h1 : (containsSub t ['%', 'c'] || containsSub t ['%', 'C']) = true
  · rw [if_pos h1]
    simp only [true_iff]
    simp only [Bool.or_eq_true] at h1
    rcases h1 with h2 | h2
    · obtain ⟨a, b, hab⟩ := (containsSub_iff t ['%', 'c']).mp h2
      exact Or.inl ⟨a, b, by rw [hab]; simp⟩
    · obtain ⟨a, b, hab⟩ := (containsSub_iff t ['%', 'C']).mp h2
      exact Or.inr (Or.inl ⟨a, b, by rw [hab]; simp⟩)
  · rw [if_neg h1]
    constructor
    · intro h
      exact Or.inr (Or.inr ((delimScan_iff t).mp h))
    · rintro (⟨a, b, hab⟩ | ⟨a, b, hab⟩ | hsp)
      · exact absurd (by
          rw [(containsSub_iff t ['%', 'c']).mpr ⟨a, b, by rw [hab]; simp⟩]
          rfl) h1
      · exact absurd (by
          rw [(containsSub_iff t ['%', 'C']).mpr ⟨a, b, by rw [hab]; simp⟩, Bool.or_true]) h1
      · exact (delimScan_iff t).mpr hsp

end Snodelist

namespace Snodelist

/-- An empty host list produces nothing. -/
theorem mf_loop_nil (hc nr : Bool) (fmt : List Char) (tc : task_count_t) :
    mf_loop hc nr fmt [] tc = { out := [], diag := none, fatal := false } := rfl

/-- The loop stops, producing nothing for the current or any remaining
host, as soon as `task_count_next` returns a non-positive value
(exhaustion, parse error, or a non-positive decoded count). -/
theorem mf_loop_stop (hc nr : Bool) (fmt host : List Char)
    (rest : List (List Char)) (tc : task_count_t)
    (h : tc_ret (task_count_next tc).1 ≤ 0) :
    mf_loop hc nr fmt (host :: rest) tc =
      { out := [], diag := tc_diag_of (task_count_next tc).1, fatal := false } := by
  rw [mf_loop, if_pos h]

/-- Single-pass step of the loop (count token present or `--no-repeats`),
successful rendering. -/
theorem mf_loop_single_ok (hc nr : Bool) (fmt host : List Char)
    (rest : List (List Char)) (tc : task_count_t)
    (h : ¬ tc_ret (task_count_next tc).1 ≤ 0) (hm : (hc || nr) = true)
    (hr : (render_line fmt host (tc_ret (task_count_next tc).1)).2 = true) :
    mf_loop hc nr fmt (host :: rest) tc =
      { out := (render_line fmt host (tc_ret (task_count_next tc).1)).1 ++
          (mf_loop hc nr fmt rest (task_count_next tc).2).out,
        diag := (mf_loop hc nr fmt rest (task_count_next tc).2).diag,
        fatal := (mf_loop hc nr fmt rest (task_count_next tc).2).fatal } := by
  rw [mf_loop, if_neg h, if_pos hm, if_pos hr]

/-- Single-pass step of the loop, rendering hits an unterminated `%[`:
the partial line is emitted and the process exits with `EINVAL`. -/
theorem mf_loop_single_fatal (hc nr : Bool) (fmt host : List Char)
    (rest : List (List Char)) (tc : task_count_t)
    (h : ¬ tc_ret (task_count_next tc).1 ≤ 0) (hm : (hc || nr) = true)
    (hr : (render_line fmt host (tc_ret (task_count_next tc).1)).2 = false) :
    mf_loop hc nr fmt (host :: rest) tc =
      { out := (render_line fmt host (tc_ret (task_count_next tc).1)).1,
        diag := none, fatal := true } := by
  rw [mf_loop, if_neg h, if_pos hm, if_neg (by rw [hr]; exact Bool.false_ne_true)]

/-- Repeat-mode step of the loop (no count token and no `--no-repeats`):
the repeat rendition is emitted once per task, newline-terminated. -/
theorem mf_loop_repeat (fmt host : List Char) (rest : List (List Char))
    (tc : task_count_t) (h : ¬ tc_ret (task_count_next tc).1 ≤ 0) :
    mf_loop false false fmt (host :: rest) tc =
      { out := rep_lines (tc_ret (task_count_next tc).1).toNat (render_repeat fmt host) ++
          (mf_loop false false fmt rest (task_count_next tc).2).out,
        diag := (mf_loop false false fmt rest (task_count_next tc).2).diag,
        fatal := (mf_loop false false fmt rest (task_count_next tc).2).fatal } := by
  rw [mf_loop, if_neg h, if_neg (by simp)]

end Snodelist

namespace Snodelist

/-- `getD` looks through `drop`. -/
theorem getD_drop (s : List Char) (i k : Nat) (d : Char) :
    (s.drop i).getD k d = s.getD (i + k) d := by
  induction s generalizing i with
  | nil => simp
  | cons a t ih =>
    cases i with
    | zero => simp
    | succ j =>
      have hj : j + 1 + k = (j + k) + 1 := by omega
      rw [List.drop_succ_cons, ih j, hj, List.getD_cons_succ]

/-- `getD` past a full left factor of an append. -/
theorem getD_append_right (d r : List Char) (k : Nat) (x : Char) :
    (d ++ r).getD (d.length + k) x = r.getD k x := by
  induction d with
  | nil => simp
  | cons a t ih =>
    have hj : (a :: t).length + k = (t.length + k) + 1 := by simp; omega
    rw [List.cons_append, hj, List.getD_cons_succ, ih]

/-- `takeWhile` passes over a fully satisfying left factor. -/
theorem takeWhile_append_all {α : Type} (p : α → Bool) (d r : List α)
    (hd : ∀ x ∈ d, p x = true) :
    (d ++ r).takeWhile p = d ++ r.takeWhile p := by
  induction d with
  | nil => simp
  | cons a t ih =>
    rw [List.cons_append, List.takeWhile_cons, if_pos (hd a (by simp)),
      ih (fun x hx => hd x (by simp [hx])), List.cons_append]

/-- A character class fact: decimal digits are not whitespace. -/
theorem digit_not_space (c : Char) (h : c.isDigit = true) : isSpaceC c = false := by
  by_contra hs
  simp only [Bool.not_eq_false] at hs
  unfold isSpaceC at hs
  simp only [Bool.or_eq_true, decide_eq_true_eq] at hs
  rcases hs with ((((h1 | h1) | h1) | h1) | h1) | h1 <;> subst h1 <;>
    exact absurd h (by decide)

/-- A decimal digit is not the NUL terminator. -/
theorem digit_ne_nul (c : Char) (h : c.isDigit = true) : c ≠ '\x00' := by
  intro h1; subst h1; exact absurd h (by decide)

/-- `strtol` over a digit run followed by a non-digit continuation. -/
theorem strtol_digits_append (ds tail : List Char) (hne : ds ≠ [])
    (hdig : ∀ c ∈ ds, c.isDigit = true)
    (htail : tail.takeWhile Char.isDigit = []) :
    strtol (ds ++ tail) = ((digitsVal ds : Int), ds.length) := by
  rcases ds with _ | ⟨d0, ds1⟩
  · exact absurd rfl hne
  · have hd0 : d0.isDigit = true := hdig d0 (by simp)
    unfold strtol
    have hws : ((d0 :: ds1 ++ tail).takeWhile isSpaceC).length = 0 := by
      rw [List.cons_append, List.takeWhile_cons, if_neg (by simp [digit_not_space d0 hd0])]
      rfl
    rw [hws]
    simp only [List.drop_zero]
    have htake : (d0 :: ds1 ++ tail).takeWhile Char.isDigit = d0 :: ds1 := by
      rw [takeWhile_append_all Char.isDigit (d0 :: ds1) tail hdig, htail, List.append_nil]
    split
    · rename_i r2 heq
      rw [List.cons_append] at heq
      injection heq with h1 h2
      rw [h1] at hd0
      exact absurd hd0 (by decide)
    · rename_i r2 heq
      rw [List.cons_append] at heq
      injection heq with h1 h2
      rw [h1] at hd0
      exact absurd hd0 (by decide)
    · rw [htake, if_neg (by simp), Nat.zero_add]

end Snodelist

namespace Snodelist

/-- `charAt` through a `drop` equation. -/
theorem charAt_drop0 (s : List Char) (i : Nat) :
    charAt s i = (s.drop i).getD 0 '\x00' := by
  unfold charAt
  simpa using (getD_drop s i 0 '\x00').symm

/-- Splitting a `drop` of a sum. -/
theorem drop_add (s : List Char) (i j : Nat) :
    s.drop (i + j) = (s.drop i).drop j :=
  (List.drop_drop j i s).symm

/-- Decoder step on a grammar entry `INT` sitting at the end of the spec:
the integer is consumed, the cursor lands on the terminator, and the
active entry has repeat `1` (stored as `count = 0` after the built-in
decrement). -/
theorem next_entry_end (str : List Char) (cur : Nat) (v : Int) (ds : List Char)
    (hdrop : str.drop cur = ds) (hne : ds ≠ [])
    (hdig : ∀ c ∈ ds, c.isDigit = true) :
    task_count_next ⟨str, cur, v, 0⟩ =
      (.value (digitsVal ds), ⟨str, cur + ds.length, digitsVal ds, 0⟩) := by
  have hstr : strtol (str.drop cur) = ((digitsVal ds : Int), ds.length) := by
    have h0 := strtol_digits_append ds [] hne hdig rfl
    rw [List.append_nil] at h0
    rw [hdrop]
    exact h0
  have hc0 : charAt str cur ≠ '\x00' := by
    rw [charAt_drop0, hdrop]
    rcases ds with _ | ⟨d0, ds1⟩
    · exact absurd rfl hne
    · rw [List.getD_cons_zero]
      exact digit_ne_nul d0 (hdig d0 (by simp))
  have he1 : charAt str (cur + ds.length) = '\x00' := by
    rw [charAt_drop0, drop_add, hdrop]
    simp
  simp only [task_count_next]
  rw [if_pos trivial, if_pos hc0, hstr]
  simp only []
  rw [if_pos (List.length_pos.mpr hne), he1,
    if_neg (by decide), if_neg (by decide), if_pos rfl]

/-- Decoder step on a grammar entry `INT` followed by a comma: the comma
is consumed as well. -/
theorem next_entry_comma (str : List Char) (cur : Nat) (v : Int)
    (ds rest : List Char) (hdrop : str.drop cur = ds ++ ',' :: rest)
    (hne : ds ≠ []) (hdig : ∀ c ∈ ds, c.isDigit = true) :
    task_count_next ⟨str, cur, v, 0⟩ =
      (.value (digitsVal ds), ⟨str, cur + ds.length + 1, digitsVal ds, 0⟩) := by
  have hstr : strtol (str.drop cur) = ((digitsVal ds : Int), ds.length) := by
    rw [hdrop]
    exact strtol_digits_append ds (',' :: rest) hne hdig
      (by rw [List.takeWhile_cons, if_neg (by decide)])
  have hc0 : charAt str cur ≠ '\x00' := by
    rw [charAt_drop0, hdrop]
    rcases ds with _ | ⟨d0, ds1⟩
    · exact absurd rfl hne
    · rw [List.cons_append, List.getD_cons_zero]
      exact digit_ne_nul d0 (hdig d0 (by simp))
  have he1 : charAt str (cur + ds.length) = ',' := by
    rw [charAt_drop0, drop_add, hdrop, List.drop_left, List.getD_cons_zero]
  simp only [task_count_next]
  rw [if_pos trivial, if_pos hc0, hstr]
  simp only []
  rw [if_pos (List.length_pos.mpr hne), he1,
    if_neg (by decide), if_pos rfl]

end Snodelist

namespace Snodelist

/-- Decoder step on a grammar entry `INT(xINT)` at the end of the spec. -/
theorem next_entry_rle_end (str : List Char) (cur : Nat) (v : Int)
    (ds rs : List Char)
    (hdrop : str.drop cur = ds ++ '(' :: 'x' :: (rs ++ [')']))
    (hne : ds ≠ []) (hdig : ∀ c ∈ ds, c.isDigit = true)
    (hrne : rs ≠ []) (hrdig : ∀ c ∈ rs, c.isDigit = true)
    (hrp : 0 < digitsVal rs) :
    task_count_next ⟨str, cur, v, 0⟩ =
      (.value (digitsVal ds),
       ⟨str, cur + ds.length + 2 + rs.length + 1, digitsVal ds, digitsVal rs - 1⟩) := by
  have hstr : strtol (str.drop cur) = ((digitsVal ds : Int), ds.length) := by
    rw [hdrop]
    exact strtol_digits_append ds ('(' :: 'x' :: (rs ++ [')'])) hne hdig
      (by rw [List.takeWhile_cons, if_neg (by decide)])
  have hc0 : charAt str cur ≠ '\x00' := by
    rw [charAt_drop0, hdrop]
    rcases ds with _ | ⟨d0, ds1⟩
    · exact absurd rfl hne
    · rw [List.cons_append, List.getD_cons_zero]
      exact digit_ne_nul d0 (hdig d0 (by simp))
  have hd1 : str.drop (cur + ds.length) = '(' :: 'x' :: (rs ++ [')']) := by
    rw [drop_add, hdrop, List.drop_left]
  have he1 : charAt str (cur + ds.length) = '(' := by
    rw [charAt_drop0, hd1, List.getD_cons_zero]
  have he1x : charAt str (cur + ds.length + 1) = 'x' := by
    rw [charAt_drop0, drop_add, hd1]
    rfl
  have hd2 : str.drop (cur + ds.length + 2) = rs ++ [')'] := by
    rw [show cur + ds.length + 2 = (cur + ds.length) + 2 from rfl, drop_add, hd1]
    rfl
  have hq : strtol (str.drop (cur + ds.length + 2)) = ((digitsVal rs : Int), rs.length) := by
    rw [hd2]
    exact strtol_digits_append rs [')'] hrne hrdig
      (by rw [List.takeWhile_cons, if_neg (by decide)])
  have he2 : charAt str (cur + ds.length + 2 + rs.length) = ')' := by
    rw [charAt_drop0, drop_add, hd2, List.drop_left, List.getD_cons_zero]
  have he2n : charAt str (cur + ds.length + 2 + rs.length + 1) = '\x00' := by
    rw [charAt_drop0, show cur + ds.length + 2 + rs.length + 1 =
      (cur + ds.length + 2) + (rs.length + 1) from by omega, drop_add, hd2]
    rw [show rs.length + 1 = rs.length + 1 from rfl]
    rw [show (rs ++ [')']).drop (rs.length + 1) = ([')'] : List Char).drop 1 from by
      rw [show rs.length + 1 = rs.length + 1 from rfl, drop_add, List.drop_left]]
    rfl
  simp only [task_count_next]
  rw [if_pos trivial, if_pos hc0, hstr]
  simp only []
  rw [if_pos (List.length_pos.mpr hne), he1, if_pos rfl, he1x, if_pos rfl, hq]
  simp only []
  rw [if_pos ⟨by simpa using hrp, List.length_pos.mpr hrne⟩, he2, he2n]
  rw [if_pos ⟨rfl, Or.inr rfl⟩, if_neg (by simp)]
  simp only [Int.toNat_natCast]

/-- Decoder step on a grammar entry `INT(xINT)` followed by a comma. -/
theorem next_entry_rle_comma (str : List Char) (cur : Nat) (v : Int)
    (ds rs rest : List Char)
    (hdrop : str.drop cur = ds ++ '(' :: 'x' :: (rs ++ ')' :: ',' :: rest))
    (hne : ds ≠ []) (hdig : ∀ c ∈ ds, c.isDigit = true)
    (hrne : rs ≠ []) (hrdig : ∀ c ∈ rs, c.isDigit = true)
    (hrp : 0 < digitsVal rs) :
    task_count_next ⟨str, cur, v, 0⟩ =
      (.value (digitsVal ds),
       ⟨str, cur + ds.length + 2 + rs.length + 2, digitsVal ds, digitsVal rs - 1⟩) := by
  have hstr : strtol (str.drop cur) = ((digitsVal ds : Int), ds.length) := by
    rw [hdrop]
    exact strtol_digits_append ds ('(' :: 'x' :: (rs ++ ')' :: ',' :: rest)) hne hdig
      (by rw [List.takeWhile_cons, if_neg (by decide)])
  have hc0 : charAt str cur ≠ '\x00' := by
    rw [charAt_drop0, hdrop]
    rcases ds with _ | ⟨d0, ds1⟩
    · exact absurd rfl hne
    · rw [List.cons_append, List.getD_cons_zero]
      exact digit_ne_nul d0 (hdig d0 (by simp))
  have hd1 : str.drop (cur + ds.length) = '(' :: 'x' :: (rs ++ ')' :: ',' :: rest) := by
    rw [drop_add, hdrop, List.drop_left]
  have he1 : charAt str (cur + ds.length) = '(' := by
    rw [charAt_drop0, hd1, List.getD_cons_zero]
  have he1x : charAt str (cur + ds.length + 1) = 'x' := by
    rw [charAt_drop0, drop_add, hd1]
    rfl
  have hd2 : str.drop (cur + ds.length + 2) = rs ++ ')' :: ',' :: rest := by
    rw [show cur + ds.length + 2 = (cur + ds.length) + 2 from rfl, drop_add, hd1]
    rfl
  have hq : strtol (str.drop (cur + ds.length + 2)) = ((digitsVal rs : Int), rs.length) := by
    rw [hd2]
    exact strtol_digits_append rs (')' :: ',' :: rest) hrne hrdig
      (by rw [List.takeWhile_cons, if_neg (by decide)])
  have he2 : charAt str (cur + ds.length + 2 + rs.length) = ')' := by
    rw [charAt_drop0, drop_add, hd2, List.drop_left, List.getD_cons_zero]
  have he2n : charAt str (cur + ds.length + 2 + rs.length + 1) = ',' := by
    rw [charAt_drop0, show cur + ds.length + 2 + rs.length + 1 =
      (cur + ds.length + 2) + (rs.length + 1) from by omega, drop_add, hd2]
    rw [show (rs ++ ')' :: ',' :: rest).drop (rs.length + 1) = (')' :: ',' :: rest).drop 1 from by
      rw [drop_add, List.drop_left]]
    rfl
  simp only [task_count_next]
  rw [if_pos trivial, if_pos hc0, hstr]
  simp only []
  rw [if_pos (List.length_pos.mpr hne), he1, if_pos rfl, he1x, if_pos rfl, hq]
  simp only []
  rw [if_pos ⟨by simpa using hrp, List.length_pos.mpr hrne⟩, he2, he2n]
  rw [if_pos ⟨rfl, Or.inl rfl⟩, if_pos (by decide)]
  simp only [Int.toNat_natCast]

end Snodelist

namespace Snodelist

/-- `task_count_next` with no active entry and the cursor at the
terminator: the silent exhaustion return of line 210. -/
theorem task_count_next_exhausted (tc : task_count_t) (h0 : tc.count = 0)
    (h1 : charAt tc.task_count_str tc.cur_ptr = '\x00') :
    task_count_next tc = (.exhausted, tc) := by
  simp only [task_count_next]
  rw [if_pos h0, if_neg (fun hh => hh h1)]

/-- `task_count_next` with no active entry, a cursor not at the
terminator, and `strtol` converting nothing: the `invalid integer value`
diagnostic of line 204, reported at the cursor offset. -/
theorem task_count_next_invalid (tc : task_count_t) (h0 : tc.count = 0)
    (h1 : charAt tc.task_count_str tc.cur_ptr ≠ '\x00')
    (h2 : (strtol (tc.task_count_str.drop tc.cur_ptr)).2 = 0) :
    task_count_next tc = (.parse_error .invalidInteger tc.cur_ptr, tc) := by
  simp only [task_count_next]
  rw [if_pos h0, if_pos h1, if_neg (by omega)]

/-- `task_count_next` with an active entry: decrement and return the
stored value (lines 213-214). -/
theorem task_count_next_active (tc : task_count_t) (h0 : tc.count ≠ 0) :
    task_count_next tc = (.value tc.value, { tc with count := tc.count - 1 }) := by
  simp only [task_count_next]
  rw [if_neg h0]

/-- Run the decoder to completion, observing at most `fuel` calls of
`task_count_next`: `some values` when exhaustion is reached cleanly,
`none` on a parse error (or if `fuel` runs out first, so "the decoder
eventually reaches `Exhausted` with no error on spec `s`" is exactly
`∃ n out, tc_run_fuel n (task_count_init s) = some out`). -/
def tc_run_fuel : Nat → task_count_t → Option (List Int)
  | 0, _ => none
  | n + 1, tc =>
    match task_count_next tc with
    | (.exhausted, _) => some []
    | (.parse_error _ _, _) => none
    | (.value v, tc2) => (tc_run_fuel n tc2).map (fun l => v :: l)

/-- Draining an active entry: `count = k` produces `k` copies of the
stored value before re-parsing. -/
theorem tc_run_fuel_drain : ∀ (k n : Nat) (str : List Char) (cur : Nat) (v : Int)
    (l : List Int), tc_run_fuel n ⟨str, cur, v, 0⟩ = some l →
    tc_run_fuel (k + n) ⟨str, cur, v, k⟩ = some (List.replicate k v ++ l) := by
  intro k
  induction k with
  | zero => intro n str cur v l h; simpa using h
  | succ m ih =>
    intro n str cur v l h
    have hnext : task_count_next ⟨str, cur, v, m + 1⟩ = (.value v, ⟨str, cur, v, m⟩) := by
      rw [task_count_next_active ⟨str, cur, v, m + 1⟩ (by simp)]
      rfl
    rw [show m + 1 + n = (m + n) + 1 from by omega]
    simp only [tc_run_fuel, hnext]
    rw [ih n str cur v l h]
    simp [List.replicate_succ]

/-- A grammar entry of the task-count spec: `INT` or `INT(xINT)` with a
positive repeat (the `RunLengthEntry` invariant `repeat >= 1`). -/
inductive entry_g : List Char → Prop
  | plain (ds : List Char) (h1 : ds ≠ []) (h2 : ∀ c ∈ ds, c.isDigit = true) :
      entry_g ds
  | rle (ds rs : List Char) (h1 : ds ≠ []) (h2 : ∀ c ∈ ds, c.isDigit = true)
      (h3 : rs ≠ []) (h4 : ∀ c ∈ rs, c.isDigit = true) (h5 : 0 < digitsVal rs) :
      entry_g (ds ++ '(' :: 'x' :: (rs ++ [')']))

/-- The task-count grammar of the specification: `entry (',' entry)*`. -/
inductive spec_g : List Char → Prop
  | last (e : List Char) (h : entry_g e) : spec_g e
  | cons (e rest : List Char) (h : entry_g e) (hr : spec_g rest) :
      spec_g (e ++ ',' :: rest)

/-- Every suffix matching the grammar decodes to exhaustion without a
parse error, from any decoder state whose cursor points at it with no
active entry. -/
theorem spec_g_run : ∀ (l : List Char), spec_g l →
    ∀ (str : List Char) (cur : Nat) (v : Int), str.drop cur = l →
    ∃ n out, tc_run_fuel n ⟨str, cur, v, 0⟩ = some out := by
  intro l hg
  induction hg with
  | last e he =>
    intro str cur v hdrop
    cases he with
    | plain ds h1 h2 =>
      have hn := next_entry_end str cur v e hdrop h1 h2
      have hx : task_count_next ⟨str, cur + e.length, digitsVal e, 0⟩ =
          (.exhausted, ⟨str, cur + e.length, digitsVal e, 0⟩) := by
        apply task_count_next_exhausted _ rfl
        show charAt str (cur + e.length) = '\x00'
        rw [charAt_drop0, drop_add, hdrop, List.drop_length]
        rfl
      refine ⟨2, [digitsVal e], ?_⟩
      simp only [tc_run_fuel, hn, hx]
      rfl
    | rle ds rs h1 h2 h3 h4 h5 =>
      have hn := next_entry_rle_end str cur v ds rs hdrop h1 h2 h3 h4 h5
      have hx : task_count_next
          ⟨str, cur + ds.length + 2 + rs.length + 1, digitsVal ds, 0⟩ =
          (.exhausted, ⟨str, cur + ds.length + 2 + rs.length + 1, digitsVal ds, 0⟩) := by
        apply task_count_next_exhausted _ rfl
        show charAt str (cur + ds.length + 2 + rs.length + 1) = '\x00'
        rw [charAt_drop0,
          show cur + ds.length + 2 + rs.length + 1 =
            cur + (ds.length + 2 + rs.length + 1) from by omega,
          drop_add, hdrop, List.drop_eq_nil_of_le (by simp; omega)]
        rfl
      have hbase : tc_run_fuel 1 ⟨str, cur + ds.length + 2 + rs.length + 1,
          digitsVal ds, 0⟩ = some [] := by
        simp only [tc_run_fuel, hx]
      have hdrain := tc_run_fuel_drain (digitsVal rs - 1) 1 str
        (cur + ds.length + 2 + rs.length + 1) (digitsVal ds) [] hbase
      refine ⟨(digitsVal rs - 1 + 1) + 1,
        (digitsVal ds : Int) :: (List.replicate (digitsVal rs - 1) (digitsVal ds : Int) ++ []), ?_⟩
      rw [tc_run_fuel.eq_2, hn]
      simp only []
      rw [hdrain]
      rfl
  | cons e rest he hr ih =>
    intro str cur v hdrop
    cases he with
    | plain ds h1 h2 =>
      have hn := next_entry_comma str cur v e rest hdrop h1 h2
      have hdrop2 : str.drop (cur + e.length + 1) = rest := by
        rw [show cur + e.length + 1 = cur + (e.length + 1) from by omega,
          drop_add, hdrop,
          show (e ++ ',' :: rest).drop (e.length + 1) = (',' :: rest).drop 1 from by
            rw [drop_add, List.drop_left]]
        rfl
      obtain ⟨n, out, hrun⟩ := ih str (cur + e.length + 1) (digitsVal e) hdrop2
      refine ⟨n + 1, digitsVal e :: out, ?_⟩
      simp only [tc_run_fuel, hn]
      rw [hrun]
      rfl
    | rle ds rs h1 h2 h3 h4 h5 =>
      have hdrop' : str.drop cur = ds ++ '(' :: 'x' :: (rs ++ ')' :: ',' :: rest) := by
        rw [hdrop]
        simp
      have hn := next_entry_rle_comma str cur v ds rs rest hdrop' h1 h2 h3 h4 h5
      have hd2x : str.drop (cur + ds.length + 2) = rs ++ ')' :: ',' :: rest := by
        rw [show cur + ds.length + 2 = cur + (ds.length + 2) from by omega,
          drop_add, hdrop',
          drop_add (ds ++ '(' :: 'x' :: (rs ++ ')' :: ',' :: rest)) ds.length 2,
          List.drop_left]
        rfl
      have hdrop2 : str.drop (cur + ds.length + 2 + rs.length + 2) = rest := by
        rw [show cur + ds.length + 2 + rs.length + 2 =
            (cur + ds.length + 2) + (rs.length + 2) from by omega,
          drop_add, hd2x,
          drop_add (rs ++ ')' :: ',' :: rest) rs.length 2, List.drop_left]
        rfl
      obtain ⟨n, out, hrun⟩ := ih str (cur + ds.length + 2 + rs.length + 2)
        (digitsVal ds) hdrop2
      have hdrain := tc_run_fuel_drain (digitsVal rs - 1) n str
        (cur + ds.length + 2 + rs.length + 2) (digitsVal ds) out hrun
      refine ⟨(digitsVal rs - 1 + n) + 1,
        (digitsVal ds : Int) :: (List.replicate (digitsVal rs - 1) (digitsVal ds : Int) ++ out), ?_⟩
      simp only [tc_run_fuel, hn]
      rw [hdrain]
      rfl

end Snodelist

namespace Snodelist

/-- Inversion for `entry_g`. -/
theorem entry_g_inv (l : List Char) (h : entry_g l) :
    (l ≠ [] ∧ ∀ c ∈ l, c.isDigit = true) ∨
    (∃ ds rs, l = ds ++ '(' :: 'x' :: (rs ++ [')'])) := by
  cases h with
  | plain ds h1 h2 => exact Or.inl ⟨h1, h2⟩
  | rle ds rs h1 h2 h3 h4 h5 => exact Or.inr ⟨ds, rs, rfl⟩

/-- Inversion for `spec_g`. -/
theorem spec_g_inv (l : List Char) (h : spec_g l) :
    entry_g l ∨ ∃ e rest, l = e ++ ',' :: rest ∧ entry_g e ∧ spec_g rest := by
  cases h with
  | last e he => exact Or.inl he
  | cons e rest he hr => exact Or.inr ⟨e, rest, rfl, he, hr⟩

/-- No grammar entry is the empty string. -/
theorem entry_g_ne_nil : ¬ entry_g [] := by
  intro h
  rcases entry_g_inv [] h with ⟨h1, _⟩ | ⟨ds, rs, heq⟩
  · exact h1 rfl
  · have := congrArg List.length heq
    simp [List.length_append] at this
    omega

/-- The empty string does not match the grammar. -/
theorem spec_g_ne_nil : ¬ spec_g [] := by
  intro h
  rcases spec_g_inv [] h with he | ⟨e, rest, heq, he, hr⟩
  · exact entry_g_ne_nil he
  · have := congrArg List.length heq
    simp [List.length_append] at this
    omega

/-- A spec with a trailing comma does not match the grammar
`entry (',' entry)*`. -/
theorem not_spec_g_trailing : ¬ spec_g ("4,".toList) := by
  intro h
  rcases spec_g_inv _ h with he | ⟨e, rest, heq, he, hr⟩
  · rcases entry_g_inv _ he with ⟨_, hall⟩ | ⟨ds, rs, heq⟩
    · exact absurd (hall ',' (by decide)) (by decide)
    · have := congrArg List.length heq
      simp [List.length_append] at this
      omega
  · rcases entry_g_inv _ he with ⟨hne, hall⟩ | ⟨ds, rs, heqe⟩
    · rcases e with _ | ⟨c1, e1⟩
      · exact hne rfl
      · rw [List.cons_append] at heq
        injection heq with hc1 heq1
        rcases e1 with _ | ⟨c2, e2⟩
        · rw [List.nil_append] at heq1
          injection heq1 with hcm heq2
          rw [← heq2] at hr
          exact spec_g_ne_nil hr
        · rw [List.cons_append] at heq1
          injection heq1 with hc2 heq2
          exact absurd (hall c2 (by simp)) (by rw [← hc2]; decide)
    · rw [heqe] at heq
      have := congrArg List.length heq
      simp [List.length_append] at this
      omega

end Snodelist

namespace Snodelist

/-- Claim C1: for the task-count spec "4(x2),2,1(x3)", starting from a
freshly initialized decoder, successive calls of `task_count_next` return
exactly 4, 4, 2, 1, 1, 1 in that order, and the seventh call reports
exhaustion. -/
theorem C1_decode_sequence :
    tcTake 7 (task_count_init "4(x2),2,1(x3)".toList) =
      [.value 4, .value 4, .value 2, .value 1, .value 1, .value 1, .exhausted] := by
  decide

/-- Claim C2 counterexample: the template "%%c" renders as the literal
text "%c" (the escaped percent is respected by the renderer), yet the
one-time classification sets `has_count` to true, because it is a plain
`strstr` substring search — contradicting the claim that such a template
is classified as having no count token. -/
theorem C2_counterexample :
    has_count_classify "%%c".toList = true ∧
    render_single "%%c".toList "n001".toList 3 = ("%c".toList, true) := by
  decide

/-- Claim C2 amended: `hasCountToken` is a substring-based
classification: it is true iff the template contains "%c" or "%C" as a
plain substring (escaping via "%%" is not considered), or contains a
delimited count token "%[<delim>]c" / "%[<delim>]C" whose delimiter is
any sequence of characters not containing ']'. -/
theorem C2_classify_substring_iff (t : List Char) :
    has_count_classify t = true ↔
      (∃ a b, t = a ++ '%' :: 'c' :: b) ∨ (∃ a b, t = a ++ '%' :: 'C' :: b) ∨
        delim_token_split t :=
  has_count_classify_iff t

/-- Witness for C2 at a concrete delimited token. -/
theorem C2_classify_substring_iff_witness :
    has_count_classify "%[:]c".toList = true :=
  (C2_classify_substring_iff ("%[:]c".toList)).mpr
    (Or.inr (Or.inr ⟨[], [':'], [], by decide, Or.inl (by decide)⟩))

/-- Claim C3 counterexample: for the malformed template "%[x" (a "%["
with no closing "]"), classification completes without any fatal error
and reports no count token, and with one host and task count 1 in repeat
mode the program produces the per-host output "x\n" with no failure at
all — contradicting the claim that the malformed delimiter is fatal
during one-time classification, before any host is rendered. -/
theorem C3_counterexample :
    has_count_classify "%[x".toList = false ∧
    print_machinefile ["n001".toList] (task_count_init "1".toList) "%[x".toList false =
      { out := "x\n".toList, diag := none, fatal := false } := by
  decide

/-- Claim C3 amended: an unterminated "%[" is not detected during
classification (the scan treats it as no count token); the malformed
delimiter is fatal only during single-pass rendering (count token
present or no-repeats mode), where it halts the process at the point the
token is reached, after any output already written for that line, and
before any further host is processed; in repeat mode it is consumed
silently with no error. -/
theorem C3_render_time_error :
    (∀ (d host : List Char) (n : Int), ']' ∉ d →
      render_single ('%' :: '[' :: d) host n = ([], false)) ∧
    (∀ (d host : List Char) (n : Int), ']' ∉ d →
      render_single ('%' :: 'h' :: '%' :: '[' :: d) host n = (host, false)) ∧
    has_count_classify "%[x".toList = false ∧
    print_machinefile ["n001".toList, "n002".toList] (task_count_init "2,2".toList)
      "%h%[x".toList true =
      { out := "n001".toList, diag := none, fatal := true } ∧
    print_machinefile ["n001".toList] (task_count_init "1".toList) "%[x".toList false =
      { out := "x\n".toList, diag := none, fatal := false } := by
  refine ⟨?_, ?_, by decide, by decide, by decide⟩
  · intro d host n hd
    exact render_single_unterminated d host n hd
  · intro d host n hd
    rw [render_single_h, render_single_unterminated d host n hd]
    simp [pushOut]

/-- Witness for C3 at a concrete unterminated template. -/
theorem C3_render_time_error_witness :
    render_single ('%' :: '[' :: ['x']) "n001".toList 3 = ([], false) :=
  C3_render_time_error.1 ['x'] "n001".toList 3 (by decide)

/-- Claim C4: machine-file iteration stops as soon as the host list is
exhausted or the decoder returns a non-positive value (exhaustion, parse
error, or a non-positive decoded count); after the stop no output line is
produced for the current or any remaining host (the result does not even
depend on the remaining hosts), and the truncation itself raises no
error; with 3 hosts and the 2-value spec "2,1", exactly the first 2
hosts produce output. -/
theorem C4_truncation :
    (∀ (fmt : List Char) (nr : Bool) (tc : task_count_t),
      print_machinefile [] tc fmt nr = { out := [], diag := none, fatal := false }) ∧
    (∀ (fmt host : List Char) (rest rest2 : List (List Char)) (nr : Bool)
        (tc : task_count_t), tc_ret (task_count_next tc).1 ≤ 0 →
      print_machinefile (host :: rest) tc fmt nr =
        { out := [], diag := tc_diag_of (task_count_next tc).1, fatal := false } ∧
      print_machinefile (host :: rest) tc fmt nr =
        print_machinefile (host :: rest2) tc fmt nr) ∧
    print_machinefile ["n000".toList, "n001".toList, "n002".toList]
      (task_count_init "2,1".toList) "%h%[:]C".toList false =
      { out := "n000:2\nn001\n".toList, diag := none, fatal := false } := by
  refine ⟨fun fmt nr tc => rfl, ?_, by decide⟩
  intro fmt host rest rest2 nr tc h
  constructor
  · exact mf_loop_stop (has_count_classify fmt) nr fmt host rest tc h
  · rw [show print_machinefile (host :: rest) tc fmt nr =
        mf_loop (has_count_classify fmt) nr fmt (host :: rest) tc from rfl,
      mf_loop_stop (has_count_classify fmt) nr fmt host rest tc h,
      show print_machinefile (host :: rest2) tc fmt nr =
        mf_loop (has_count_classify fmt) nr fmt (host :: rest2) tc from rfl,
      mf_loop_stop (has_count_classify fmt) nr fmt host rest2 tc h]

/-- Witness for C4 at an exhausted decoder with one host remaining. -/
theorem C4_truncation_witness :
    print_machinefile ["x".toList] (task_count_init "".toList) "%h".toList false =
      { out := [], diag := none, fatal := false } := by
  have h := (C4_truncation.2.1 "%h".toList "x".toList [] [] false
    (task_count_init "".toList) (by decide)).1
  exact h.trans (by decide)

end Snodelist

namespace Snodelist

/-- Claim C5: in single-pass rendering, %C and %[<delim>]C expand to the
decimal task count (preceded by the delimiter text in the delimited form)
when the count is greater than 1, and produce no output at all when the
count is at most 1; concretely, rendering "%h%[:]C" for host "n001"
yields "n001:3\n" at count 3 and "n001\n" at count 1. -/
theorem C5_count_token_semantics :
    (∀ (r host : List Char) (n : Int), n ≤ 1 →
      render_single ('%' :: 'C' :: r) host n = render_single r host n) ∧
    (∀ (r host : List Char) (n : Int), 1 < n →
      render_single ('%' :: 'C' :: r) host n =
        pushOut (Int.repr n).toList (render_single r host n)) ∧
    (∀ (d r host : List Char) (n : Int), ']' ∉ d → n ≤ 1 →
      render_single ('%' :: '[' :: (d ++ ']' :: 'C' :: r)) host n =
        render_single r host n) ∧
    (∀ (d r host : List Char) (n : Int), ']' ∉ d → 1 < n →
      render_single ('%' :: '[' :: (d ++ ']' :: 'C' :: r)) host n =
        pushOut (d ++ (Int.repr n).toList) (render_single r host n)) ∧
    render_line "%h%[:]C".toList "n001".toList 3 = ("n001:3\n".toList, true) ∧
    render_line "%h%[:]C".toList "n001".toList 1 = ("n001\n".toList, true) := by
  exact ⟨render_single_C_le, render_single_C_gt,
    fun d r host n hd hn => render_single_delim_C_le d r host n hd hn,
    fun d r host n hd hn => render_single_delim_C_gt d r host n hd hn,
    by decide, by decide⟩

/-- Witness for C5 at concrete tokens and counts. -/
theorem C5_count_token_semantics_witness :
    render_single ('%' :: 'C' :: []) "h".toList 1 = render_single [] "h".toList 1 ∧
    render_single ('%' :: '[' :: ([':'] ++ ']' :: 'C' :: [])) "h".toList 3 =
      pushOut ([':'] ++ (Int.repr 3).toList) (render_single [] "h".toList 3) :=
  ⟨C5_count_token_semantics.1 [] "h".toList 1 (by decide),
   C5_count_token_semantics.2.2.2.1 [':'] [] "h".toList 3 (by decide) (by decide)⟩

/-- Claim C6: when the template has no count token and no-repeats is off,
each host's template is rendered once per task (task-count many
newline-terminated repeat-mode renditions, substituting only %% and %h);
with no-repeats on, the template is rendered exactly once per host (one
single-pass line); concretely "%h" with count 3 yields three lines
"n001\n" in repeat mode and one line "n001\n" with no-repeats. -/
theorem C6_repeat_semantics :
    (∀ (fmt host : List Char) (rest : List (List Char)) (tc : task_count_t),
      has_count_classify fmt = false →
      ¬ tc_ret (task_count_next tc).1 ≤ 0 →
      print_machinefile (host :: rest) tc fmt false =
        { out := rep_lines (tc_ret (task_count_next tc).1).toNat
              (render_repeat fmt host) ++
            (print_machinefile rest (task_count_next tc).2 fmt false).out,
          diag := (print_machinefile rest (task_count_next tc).2 fmt false).diag,
          fatal := (print_machinefile rest (task_count_next tc).2 fmt false).fatal }) ∧
    (∀ (fmt host : List Char) (rest : List (List Char)) (tc : task_count_t),
      ¬ tc_ret (task_count_next tc).1 ≤ 0 →
      (render_line fmt host (tc_ret (task_count_next tc).1)).2 = true →
      print_machinefile (host :: rest) tc fmt true =
        { out := (render_line fmt host (tc_ret (task_count_next tc).1)).1 ++
            (print_machinefile rest (task_count_next tc).2 fmt true).out,
          diag := (print_machinefile rest (task_count_next tc).2 fmt true).diag,
          fatal := (print_machinefile rest (task_count_next tc).2 fmt true).fatal }) ∧
    print_machinefile ["n001".toList] (task_count_init "3".toList) "%h".toList false =
      { out := "n001\nn001\nn001\n".toList, diag := none, fatal := false } ∧
    print_machinefile ["n001".toList] (task_count_init "3".toList) "%h".toList true =
      { out := "n001\n".toList, diag := none, fatal := false } := by
  refine ⟨?_, ?_, by decide, by decide⟩
  · intro fmt host rest tc hc h
    rw [show print_machinefile (host :: rest) tc fmt false =
        mf_loop (has_count_classify fmt) false fmt (host :: rest) tc from rfl, hc,
      mf_loop_repeat fmt host rest tc h,
      show print_machinefile rest (task_count_next tc).2 fmt false =
        mf_loop (has_count_classify fmt) false fmt rest (task_count_next tc).2 from rfl, hc]
  · intro fmt host rest tc h hr
    rw [show print_machinefile (host :: rest) tc fmt true =
        mf_loop (has_count_classify fmt) true fmt (host :: rest) tc from rfl,
      mf_loop_single_ok (has_count_classify fmt) true fmt host rest tc h (by simp) hr]
    rfl

/-- Witness for C6: two hosts in repeat mode, first step unfolded. -/
theorem C6_repeat_semantics_witness :
    print_machinefile ["n001".toList, "n002".toList] (task_count_init "3,2".toList)
      "%h".toList false =
      { out := rep_lines (tc_ret (task_count_next (task_count_init "3,2".toList)).1).toNat
            (render_repeat "%h".toList "n001".toList) ++
          (print_machinefile ["n002".toList]
            (task_count_next (task_count_init "3,2".toList)).2 "%h".toList false).out,
        diag := (print_machinefile ["n002".toList]
            (task_count_next (task_count_init "3,2".toList)).2 "%h".toList false).diag,
        fatal := (print_machinefile ["n002".toList]
            (task_count_next (task_count_init "3,2".toList)).2 "%h".toList false).fatal } :=
  C6_repeat_semantics.1 "%h".toList "n001".toList ["n002".toList]
    (task_count_init "3,2".toList) (by decide) (by decide)

/-- Claim C7 counterexample: at cursor 0 of "-3" the character '-' is
neither a decimal digit nor the end of the string, yet the decoder does
not fail with an invalid-integer error: strtol accepts the sign and
next() returns the decoded value -3. -/
theorem C7_counterexample :
    Char.isDigit '-' = false ∧ ('-' : Char) ≠ '\x00' ∧
    charAt ("-3".toList) 0 = '-' ∧
    (task_count_next (task_count_init "-3".toList)).1 = .value (-3) := by
  decide

/-- Claim C7 amended: with no active entry, next() returns Exhausted iff
the cursor is at end-of-string, and fails with the invalid-integer error
at the cursor offset exactly when strtol converts nothing there; since
strtol skips leading whitespace and accepts a sign, "-3", " 3" and "+3"
decode to values rather than failing, while "abc" fails with the
invalid-integer error at offset 0. -/
theorem C7_invalid_integer :
    (∀ tc : task_count_t, tc.count = 0 →
      charAt tc.task_count_str tc.cur_ptr = '\x00' →
      task_count_next tc = (.exhausted, tc)) ∧
    (∀ tc : task_count_t, tc.count = 0 →
      charAt tc.task_count_str tc.cur_ptr ≠ '\x00' →
      (strtol (tc.task_count_str.drop tc.cur_ptr)).2 = 0 →
      task_count_next tc = (.parse_error .invalidInteger tc.cur_ptr, tc)) ∧
    (task_count_next (task_count_init "abc".toList)).1 =
      .parse_error .invalidInteger 0 ∧
    (task_count_next (task_count_init "-3".toList)).1 = .value (-3) ∧
    (task_count_next (task_count_init " 3".toList)).1 = .value 3 ∧
    (task_count_next (task_count_init "+3".toList)).1 = .value 3 := by
  exact ⟨task_count_next_exhausted, task_count_next_invalid,
    by decide, by decide, by decide, by decide⟩

/-- Witness for C7 at the empty spec. -/
theorem C7_invalid_integer_witness :
    task_count_next (task_count_init "".toList) =
      (.exhausted, task_count_init "".toList) :=
  C7_invalid_integer.1 (task_count_init "".toList) rfl (by decide)

/-- Claim C8 counterexample: observed through the int return value of
the C function, a parse error ("abc"), normal exhaustion (""), and a
legitimately decoded value -1 (spec "-1") are all identical (-1), so the
three outcomes are not mutually distinguishable from the result of
next(). -/
theorem C8_counterexample :
    (task_count_next (task_count_init "abc".toList)).1 =
      .parse_error .invalidInteger 0 ∧
    (task_count_next (task_count_init "".toList)).1 = .exhausted ∧
    (task_count_next (task_count_init "-1".toList)).1 = .value (-1) ∧
    tc_ret (task_count_next (task_count_init "abc".toList)).1 =
      tc_ret (task_count_next (task_count_init "".toList)).1 ∧
    tc_ret (task_count_next (task_count_init "".toList)).1 =
      tc_ret (task_count_next (task_count_init "-1".toList)).1 := by
  decide

/-- Claim C8 amended: next() signals both Exhausted and ParseError by
returning -1 (so a decoded value of -1 collides with them); the stderr
diagnostic is emitted exactly for parse errors, so error vs exhaustion
can be told apart only through that side channel, never through the
return value. -/
theorem C8_return_collapse :
    (∀ tc : task_count_t, tc_ret (task_count_next tc).1 = -1 ∨
      ∃ v, (task_count_next tc).1 = .value v ∧
        tc_ret (task_count_next tc).1 = v) ∧
    (∀ tc : task_count_t, tc_diag (task_count_next tc).1 = true ↔
      ∃ k off, (task_count_next tc).1 = .parse_error k off) ∧
    tc_diag (task_count_next (task_count_init "abc".toList)).1 = true ∧
    tc_diag (task_count_next (task_count_init "".toList)).1 = false ∧
    tc_diag (task_count_next (task_count_init "-1".toList)).1 = false ∧
    tc_ret (task_count_next (task_count_init "-1".toList)).1 = -1 := by
  refine ⟨?_, ?_, by decide, by decide, by decide, by decide⟩
  · intro tc
    rcases h : (task_count_next tc).1 with v | _ | ⟨k, off⟩
    · exact Or.inr ⟨v, rfl, rfl⟩
    · exact Or.inl rfl
    · exact Or.inl rfl
  · intro tc
    constructor
    · intro hd
      rcases h : (task_count_next tc).1 with v | _ | ⟨k, off⟩
      · rw [h] at hd
        simp [tc_diag] at hd
      · rw [h] at hd
        simp [tc_diag] at hd
      · exact ⟨k, off, rfl⟩
    · rintro ⟨k, off, h⟩
      rw [h]
      rfl

/-- Witness for C8 at a concrete spec. -/
theorem C8_return_collapse_witness :
    tc_diag (task_count_next (task_count_init "4".toList)).1 = true ↔
      ∃ k off, (task_count_next (task_count_init "4".toList)).1 =
        .parse_error k off :=
  C8_return_collapse.2.1 (task_count_init "4".toList)

/-- Claim C9 counterexample: "4," does not match the grammar
entry (',' entry)*, yet the decoder decodes it to the value 4 and then
reports exhaustion with no parse error. -/
theorem C9_counterexample :
    ¬ spec_g ("4,".toList) ∧
    tc_run_fuel 2 (task_count_init "4,".toList) = some [4] :=
  ⟨not_spec_g_trailing, by decide⟩

/-- Claim C9 amended: every string matching the grammar
entry (',' entry)* with entry = INT | INT '(x' INT ')' and a positive
repeat decodes to exhaustion without any parse error; the converse of
the claimed equivalence fails: the decoder also accepts strings outside
the grammar — a trailing comma ("4,") decodes to [4] then Exhausted, and
strtol-style signed integers such as "-3" decode as well — while "4(x0)"
is rejected despite its INT-shaped repeat. -/
theorem C9_grammar_sound :
    (∀ s : List Char, spec_g s →
      ∃ n out, tc_run_fuel n (task_count_init s) = some out) ∧
    tc_run_fuel 2 (task_count_init "4,".toList) = some [4] ∧
    ¬ spec_g ("4,".toList) ∧
    tc_run_fuel 2 (task_count_init "-3".toList) = some [-3] ∧
    (task_count_next (task_count_init "4(x0)".toList)).1 =
      .parse_error .invalidRepeat 3 := by
  refine ⟨?_, by decide, not_spec_g_trailing, by decide, by decide⟩
  intro s hg
  exact spec_g_run s hg s 0 (-1) (by simp)

/-- Witness for C9 at the grammar-matching spec "4(x2),2". -/
theorem C9_grammar_sound_witness :
    ∃ n out, tc_run_fuel n (task_count_init "4(x2),2".toList) = some out := by
  apply C9_grammar_sound.1
  have he1 : entry_g ("4(x2)".toList) :=
    entry_g.rle ['4'] ['2'] (by decide) (by decide) (by decide) (by decide) (by decide)
  exact spec_g.cons ("4(x2)".toList) ("2".toList) he1
    (spec_g.last ("2".toList) (entry_g.plain ['2'] (by decide) (by decide)))

/-- Claim C10: the delimiter between "%[" and "]" is never validated
against the documented punctuation/whitespace set: for every sequence d
of characters not containing ']', a template containing %[d]c is
classified as having a count token, and the token renders as the
characters of d verbatim followed by the decimal task count; the empty
delimiter %[]c is accepted and renders exactly like a bare %c. -/
theorem C10_delimiter_unvalidated :
    (∀ pre d suf : List Char, ']' ∉ d →
      has_count_classify (pre ++ '%' :: '[' :: (d ++ ']' :: 'c' :: suf)) = true) ∧
    (∀ (d r host : List Char) (n : Int), ']' ∉ d →
      render_single ('%' :: '[' :: (d ++ ']' :: 'c' :: r)) host n =
        pushOut (d ++ (Int.repr n).toList) (render_single r host n)) ∧
    (∀ (r host : List Char) (n : Int),
      render_single ('%' :: '[' :: ']' :: 'c' :: r) host n =
        render_single ('%' :: 'c' :: r) host n) := by
  refine ⟨?_, ?_, ?_⟩
  · intro pre d suf hd
    exact (has_count_classify_iff _).mpr
      (Or.inr (Or.inr ⟨pre, d, suf, hd, Or.inl rfl⟩))
  · intro d r host n hd
    exact render_single_delim_c d r host n hd
  · intro r host n
    rw [show ('%' :: '[' :: ']' :: 'c' :: r) =
        ('%' :: '[' :: (([] : List Char) ++ ']' :: 'c' :: r)) from rfl,
      render_single_delim_c [] r host n (by simp), render_single_c]
    simp [pushOut]

/-- Witness for C10 at a concrete delimiter. -/
theorem C10_delimiter_unvalidated_witness :
    has_count_classify ("ab".toList ++ '%' :: '[' :: ("-_".toList ++ ']' :: 'c' :: [])) =
      true :=
  C10_delimiter_unvalidated.1 "ab".toList "-_".toList [] (by decide)

end Snodelist
